import Mathlib

/-!
Verification of the obelisk wire-protocol codec (`src/proxy.cpp` of
libbitcoin-client): request encoders, response decoders and the two
expansion algorithms (compact-history reconciliation and stealth-row
expansion), shallowly embedded over byte lists (`List Nat`, each entry
one byte).

External library primitives (the byte reader, `chain::point::from_data`,
the `point_kind` enumeration values and the `binary` prefix type) are not
part of this repository; they are modelled from the specification's wire
tables, as noted on each definition.
-/

/-! ## Byte-reader primitives

Modelled from the spec: the external `reader` exposes byte / hash /
little-endian integer reads that fail on insufficient input, and decoding
treats a failed primitive read as a decode failure.  A parser consumes a
prefix of the payload and returns the parsed value plus the unread rest,
or `none` on a parse failure. -/

/-- Read a single byte (`reader::read_byte`). -/
def readByte : List Nat → Option (Nat × List Nat)
  | [] => none
  | b :: s => some (b, s)

/-- Read exactly `n` bytes (`reader::read_bytes` / `read_hash` /
`read_short_hash`). -/
def readBytes : Nat → List Nat → Option (List Nat × List Nat)
  | 0, s => some ([], s)
  | _ + 1, [] => none
  | n + 1, b :: s =>
    match readBytes n s with
    | none => none
    | some (bs, rest) => some (b :: bs, rest)

/-- Little-endian value of a byte list (first byte least significant). -/
def fromLE : List Nat → Nat
  | [] => 0
  | b :: bs => b + 256 * fromLE bs

/-- Read an `n`-byte little-endian integer
(`reader::read_4_bytes_little_endian`, `read_8_bytes_little_endian`). -/
def readLE (n : Nat) (s : List Nat) : Option (Nat × List Nat) :=
  match readBytes n s with
  | none => none
  | some (bs, rest) => some (fromLE bs, rest)

/-- Little-endian encoding of `v` on `n` bytes (`to_little_endian`). -/
def toLE : Nat → Nat → List Nat
  | 0, _ => []
  | n + 1, v => v % 256 :: toLE n (v / 256)

/-- The repository's `reverse` helper: `std::reverse_copy` of a byte
collection, written as the left fold that conses each element onto the
output. -/
def reverse {α : Type} (l : List α) : List α :=
  l.foldl (fun acc b => b :: acc) []

/-! ## Data model -/

/-- Modelled from the spec: a transaction outpoint, `point (32-byte hash +
4-byte index)` on the wire. -/
structure Point where
  hash : List Nat
  index : Nat
deriving DecidableEq, Repr

/-- Modelled from the spec: `chain::point::from_data` reads the 32-byte
hash then the 4-byte little-endian index. -/
def point_from_data (s : List Nat) : Option (Point × List Nat) :=
  match readBytes 32 s with
  | none => none
  | some (h, s1) =>
    match readLE 4 s1 with
    | none => none
    | some (idx, s2) => some ({ hash := h, index := idx }, s2)

/-- `null_hash`: 32 zero bytes. -/
def null_hash : List Nat := List.replicate 32 0

/-- `max_uint32`. -/
def max_uint32 : Nat := 4294967295

/-- `max_uint8`. -/
def max_uint8 : Nat := 255

/-- Modelled from the spec: the external `point_kind` enumeration's
`output` member, as stored in the wire kind byte. -/
def point_kind_output : Nat := 0

/-- Modelled from the spec: the external `point_kind` enumeration's
`spend` member, as stored in the wire kind byte. -/
def point_kind_spend : Nat := 1

/-- Compact history row (`chain::history_compact`): `kind` is the raw
wire byte (the C++ cast from byte to `point_kind` validates nothing), and
the 8-byte `value` slot is a union holding the output value for Output
rows and `previous_checksum` for Spend rows. -/
structure HistoryCompact where
  kind : Nat
  point : Point
  height : Nat
  value : Nat
deriving DecidableEq, Repr

/-- Expanded history row (`chain::history`), the caller-facing result:
`spend_height` is a 64-bit slot that the reconciliation temporarily
reuses to hold the output's checksum. -/
structure History where
  output : Point
  output_height : Nat
  value : Nat
  spend : Point
  spend_height : Nat
deriving DecidableEq, Repr

/-- Compact stealth row (`chain::stealth_compact`). -/
structure StealthCompact where
  ephemeral_public_key_hash : List Nat
  public_key_hash : List Nat
  transaction_hash : List Nat
deriving DecidableEq, Repr

/-- Expanded stealth row (`chain::stealth`). -/
structure Stealth where
  ephemeral_public_key : List Nat
  public_key_hash : List Nat
  transaction_hash : List Nat
deriving DecidableEq, Repr

/-- Modelled from the spec and the source comment: the ephemeral public
key sign byte is fixed to 0x02 by convention. -/
def ephemeral_public_key_sign : Nat := 2

/-- Payment address: version byte plus 20-byte hash (canonical in-memory
order). -/
structure PaymentAddress where
  version : Nat
  hash : List Nat
deriving DecidableEq, Repr

/-- Modelled from the spec: the `binary` prefix type carries a bit length
(`size`) and its backing byte blocks. -/
structure Binary where
  size : Nat
  blocks : List Nat
deriving DecidableEq, Repr

/-- Which response decoder a facade operation binds to its request
(`std::bind(decode_..., _1, handler)` in the source). -/
inductive DecoderKind where
  | empty
  | transaction
  | height
  | block_header
  | transaction_index
  | validate
  | stealth
  | history
  | expanded_history
deriving DecidableEq, Repr

/-- A request handed to the transport by `send_request`: command name,
payload bytes, and the decoder bound for the reply. -/
structure Request where
  command : String
  payload : List Nat
  decoder : DecoderKind
deriving DecidableEq, Repr

/-! ## Repeating-row payloads

The decoders for `transaction_pool.validate`, `blockchain.fetch_stealth`,
`blockchain.fetch_history` and `address.fetch_history` loop
`while (!payload.is_exhausted())`, reading one row per iteration and
failing on any mid-row read failure.  `readRowsFuel` runs that loop with
a fuel bound; since every row parser below consumes at least one byte,
fuel equal to the payload length never runs out before the payload does. -/

def readRowsFuel {R : Type} (rowP : List Nat → Option (R × List Nat)) :
    Nat → List Nat → Option (List R)
  | _, [] => some []
  | 0, _ :: _ => none
  | fuel + 1, b :: s =>
    match rowP (b :: s) with
    | none => none
    | some (r, rest) =>
      match readRowsFuel rowP fuel rest with
      | none => none
      | some rs => some (r :: rs)

/-- Run a row parser until the payload is exhausted. -/
def readRows {R : Type} (rowP : List Nat → Option (R × List Nat))
    (s : List Nat) : Option (List R) :=
  readRowsFuel rowP s.length s

/-! ## Stealth expansion (`proxy::expand(const stealth_compact::list&)`) -/

/-- `proxy::expand` over compact stealth rows: prepend the fixed sign
byte to the ephemeral key hash (`splice(sign, ...)`), byte-reverse the
public key hash, pass the transaction hash through; rows accumulate via
`emplace_back`. -/
def expand_stealth (compact : List StealthCompact) : List Stealth :=
  compact.foldl (fun result inp =>
    result ++
      [{ ephemeral_public_key :=
           [ephemeral_public_key_sign] ++ inp.ephemeral_public_key_hash,
         public_key_hash := reverse inp.public_key_hash,
         transaction_hash := inp.transaction_hash }]) []

/-! ## History reconciliation (`proxy::expand(const history_compact::list&)`) -/

/-- First-pass row for an Output-kind compact row: sentinel spend, and
the output's checksum temporarily stored in `spend_height`. -/
def initRow (checksum : Point → Nat) (output : HistoryCompact) : History :=
  { output := output.point, output_height := output.height,
    value := output.value,
    spend := { hash := null_hash, index := max_uint32 },
    spend_height := checksum output.point }

/-- First pass: one result row per Output-kind compact row, in input
order. -/
def firstPass (checksum : Point → Nat) (compact : List HistoryCompact) :
    List History :=
  compact.foldl (fun result output =>
    if output.kind == point_kind_output then
      result ++ [initRow checksum output]
    else result) []

/-- The second-pass match condition (source line
`row.spend_height == spend.previous_checksum && row.spend.hash == null_hash`;
`previous_checksum` is the union alias of the row's `value` slot). -/
def History.isMatch (spend : HistoryCompact) (row : History) : Bool :=
  row.spend_height == spend.value && row.spend.hash == null_hash

/-- A result row that a Spend-kind row carrying previous-checksum `K`
would match: still-null spend hash and stored value `K` in the
spend-height slot.  For a spend with wire value `K` this is exactly
`History.isMatch`, so such rows are the ones still available to absorb
`K`-checksum spends during the second pass. -/
def History.isAvailable (K : Nat) (row : History) : Bool :=
  row.spend_height == K && row.spend.hash == null_hash

/-- Inner loop of the second pass: scan the accumulated rows and
overwrite the first match's spend fields, then `break`. -/
def applySpend (spend : HistoryCompact) : List History → List History
  | [] => []
  | row :: rest =>
    if row.isMatch spend then
      { row with spend := spend.point, spend_height := spend.height } :: rest
    else
      row :: applySpend spend rest

/-- Second pass: fold every Spend-kind compact row over the accumulated
result list. -/
def secondPass (compact : List HistoryCompact) (rows : List History) :
    List History :=
  compact.foldl (fun result spend =>
    if spend.kind == point_kind_spend then applySpend spend result
    else result) rows

/-- Final pass: clear the checksum placeholder of every still-unspent
row to the unspent sentinel height. -/
def clearPass (rows : List History) : List History :=
  rows.map (fun row =>
    if row.spend.hash == null_hash then { row with spend_height := max_uint32 }
    else row)

/-- `proxy::expand` over compact history rows: the three passes. -/
def expand_history (checksum : Point → Nat) (compact : List HistoryCompact) :
    List History :=
  clearPass (secondPass compact (firstPass checksum compact))

/-- Second-pass inner loop as the spec words it (section 4.3): rows
before the first match are unchanged, the first matching row has its
spend fields overwritten, rows after it are unchanged. -/
def applySpendSpec (spend : HistoryCompact) (rows : List History) :
    List History :=
  match rows.dropWhile (fun row => ! row.isMatch spend) with
  | [] => rows
  | row :: rest =>
    rows.takeWhile (fun row => ! row.isMatch spend) ++
      ({ row with spend := spend.point, spend_height := spend.height } :: rest)

/-- Second pass using the spec-worded inner loop. -/
def secondPassSpec (compact : List HistoryCompact) (rows : List History) :
    List History :=
  compact.foldl (fun result spend =>
    if spend.kind == point_kind_spend then applySpendSpec spend result
    else result) rows

/-- The spec's wording of the reconciliation algorithm, to be compared
with `expand_history`. -/
def expand_history_spec (checksum : Point → Nat)
    (compact : List HistoryCompact) : List History :=
  clearPass (secondPassSpec compact (firstPass checksum compact))

/-- The value `BITCOIN_ASSERT(row.value == spend.value)` checks at the
first matching row of the scan for one spend (`none` when the spend
matches no row). -/
def spendAssert (spend : HistoryCompact) : List History → Option Bool
  | [] => none
  | row :: rest =>
    if row.isMatch spend then some (row.value == spend.value)
    else spendAssert spend rest

/-- All `BITCOIN_ASSERT(row.value == spend.value)` outcomes of the second
pass, in execution order. -/
def historyAsserts (checksum : Point → Nat) (compact : List HistoryCompact) :
    List Bool :=
  (compact.foldl (fun (acc : List History × List Bool) spend =>
    if spend.kind == point_kind_spend then
      (applySpend spend acc.1, acc.2 ++ (spendAssert spend acc.1).toList)
    else acc) (firstPass checksum compact, [])).2

/-- The checksum comparison `row.spend_height == spend.value` evaluated
at the first matching row of the scan for one spend. -/
def spendMatchCheck (spend : HistoryCompact) : List History → Option Bool
  | [] => none
  | row :: rest =>
    if row.isMatch spend then some (row.spend_height == spend.value)
    else spendMatchCheck spend rest

/-- All second-pass match-time checksum comparisons
`row.spend_height == spend.value`, in execution order. -/
def historyMatchChecks (checksum : Point → Nat)
    (compact : List HistoryCompact) : List Bool :=
  (compact.foldl (fun (acc : List History × List Bool) spend =>
    if spend.kind == point_kind_spend then
      (applySpend spend acc.1, acc.2 ++ (spendMatchCheck spend acc.1).toList)
    else acc) (firstPass checksum compact, [])).2

/-! ## Response decoders

Each C++ decoder takes the reply payload reader and a handler, returns
`false` on a malformed payload and otherwise invokes the handler exactly
once with the parsed result and returns `true`.  The embedding returns
`Option`: `none` means the decoder failed and the handler was never
invoked; `some r` means the handler was invoked with `r`. -/

/-- `proxy::decode_empty`. -/
def decode_empty (payload : List Nat) : Option Unit :=
  if payload = [] then some () else none

/-- `proxy::decode_transaction`, parameterised by the external
`transaction::from_data` deserialiser. -/
def decode_transaction {Tx : Type}
    (tx_from_data : List Nat → Option (Tx × List Nat))
    (payload : List Nat) : Option Tx :=
  match tx_from_data payload with
  | none => none
  | some (tx, rest) => if rest = [] then some tx else none

/-- `proxy::decode_height`. -/
def decode_height (payload : List Nat) : Option Nat :=
  match readLE 4 payload with
  | none => none
  | some (last_height, rest) =>
    if rest = [] then some last_height else none

/-- `proxy::decode_block_header`, parameterised by the external
`header::from_data` deserialiser. -/
def decode_block_header {Hd : Type}
    (header_from_data : List Nat → Option (Hd × List Nat))
    (payload : List Nat) : Option Hd :=
  match header_from_data payload with
  | none => none
  | some (header, rest) => if rest = [] then some header else none

/-- `proxy::decode_transaction_index`: 4-byte height then 4-byte index. -/
def decode_transaction_index (payload : List Nat) : Option (Nat × Nat) :=
  match readLE 4 payload with
  | none => none
  | some (block_height, r1) =>
    match readLE 4 r1 with
    | none => none
    | some (index, r2) =>
      if r2 = [] then some (block_height, index) else none

/-- `proxy::decode_validate`: repeating 4-byte unconfirmed indexes until
exhaustion. -/
def decode_validate (payload : List Nat) : Option (List Nat) :=
  readRows (readLE 4) payload

/-- One compact stealth row on the wire: 32-byte ephemeral key hash,
20-byte public key hash, 32-byte transaction hash. -/
def stealthRowParse (s : List Nat) : Option (StealthCompact × List Nat) :=
  match readBytes 32 s with
  | none => none
  | some (eph, s1) =>
    match readBytes 20 s1 with
    | none => none
    | some (pkh, s2) =>
      match readBytes 32 s2 with
      | none => none
      | some (tx, s3) =>
        some ({ ephemeral_public_key_hash := eph, public_key_hash := pkh,
                transaction_hash := tx }, s3)

/-- `proxy::decode_stealth`: repeating compact rows, then expansion. -/
def decode_stealth (payload : List Nat) : Option (List Stealth) :=
  (readRows stealthRowParse payload).map expand_stealth

/-- One compact history row on the wire: kind byte, point, 4-byte height,
8-byte value/checksum slot. -/
def historyRowParse (s : List Nat) : Option (HistoryCompact × List Nat) :=
  match readByte s with
  | none => none
  | some (kind, s1) =>
    match point_from_data s1 with
    | none => none
    | some (pt, s2) =>
      match readLE 4 s2 with
      | none => none
      | some (height, s3) =>
        match readLE 8 s3 with
        | none => none
        | some (value, s4) =>
          some ({ kind := kind, point := pt, height := height,
                  value := value }, s4)

/-- `proxy::decode_history`: repeating compact rows, then reconciliation;
parameterised by the external `point::checksum` function used by the
expansion's first pass. -/
def decode_history (checksum : Point → Nat) (payload : List Nat) :
    Option (List History) :=
  (readRows historyRowParse payload).map (expand_history checksum)

/-- One expanded (legacy) history row on the wire: output point, 8-byte
output height, 8-byte value, spend point, 8-byte spend height. -/
def expandedRowParse (s : List Nat) : Option (History × List Nat) :=
  match point_from_data s with
  | none => none
  | some (outp, s1) =>
    match readLE 8 s1 with
    | none => none
    | some (output_height, s2) =>
      match readLE 8 s2 with
      | none => none
      | some (value, s3) =>
        match point_from_data s3 with
        | none => none
        | some (sp, s4) =>
          match readLE 8 s4 with
          | none => none
          | some (spend_height, s5) =>
            some ({ output := outp, output_height := output_height,
                    value := value, spend := sp,
                    spend_height := spend_height }, s5)

/-- `proxy::decode_expanded_history` (legacy `address.fetch_history`):
repeating fully-expanded rows, no reconciliation. -/
def decode_expanded_history (payload : List Nat) : Option (List History) :=
  readRows expandedRowParse payload

/-! ## Facade request encoders

Each facade operation builds the request payload and hands it to
`send_request` together with the bound decoder.  Operations that validate
locally return `Option Request`: `none` means the error handler was
invoked synchronously, no request was produced and no decoder will ever
run. -/

/-- `proxy::blockchain_fetch_history`: version byte, byte-reversed
address hash, 4-byte little-endian from-height; replies decode through
`decode_history`. -/
def blockchain_fetch_history (address : PaymentAddress)
    (from_height : Nat) : Request :=
  { command := "blockchain.fetch_history",
    payload := [address.version] ++ reverse address.hash ++ toLE 4 from_height,
    decoder := DecoderKind.history }

/-- `proxy::address_fetch_history2`: version byte, address hash in
canonical order, 4-byte little-endian from-height; replies decode through
`decode_history`. -/
def address_fetch_history2 (address : PaymentAddress)
    (from_height : Nat) : Request :=
  { command := "address.fetch_history2",
    payload := [address.version] ++ address.hash ++ toLE 4 from_height,
    decoder := DecoderKind.history }

/-- `proxy::blockchain_fetch_stealth`: reject a prefix longer than
`max_uint8` bits before building any request; otherwise one byte of
prefix bit-length, the prefix blocks, and the 4-byte from-height. -/
def blockchain_fetch_stealth (pfx : Binary) (from_height : Nat) :
    Option Request :=
  if pfx.size > max_uint8 then none
  else
    some { command := "blockchain.fetch_stealth",
           payload := [pfx.size % 256] ++ pfx.blocks ++ toLE 4 from_height,
           decoder := DecoderKind.stealth }

/-- The prefix overload of `proxy::address_subscribe`: reject a prefix
longer than `max_uint8` bits before building any request; otherwise the
discriminator byte, one byte of prefix bit-length, and the prefix
blocks. -/
def address_subscribe_binary (discriminator : Nat) (pfx : Binary) :
    Option Request :=
  if pfx.size > max_uint8 then none
  else
    some { command := "address.subscribe",
           payload := [discriminator % 256] ++ [pfx.size % 256] ++ pfx.blocks,
           decoder := DecoderKind.empty }

/-! ## Helper lemmas: primitives -/

theorem readBytes_none_of_lt {n : Nat} {s : List Nat} (h : s.length < n) :
    readBytes n s = none := by
  induction n generalizing s with
  | zero => omega
  | succ n ih =>
    cases s with
    | nil => rfl
    | cons b t =>
      simp only [readBytes]
      rw [ih (by simpa using h)]

theorem readBytes_of_le {n : Nat} {s : List Nat} (h : n ≤ s.length) :
    readBytes n s = some (s.take n, s.drop n) := by
  induction n generalizing s with
  | zero => simp [readBytes]
  | succ n ih =>
    cases s with
    | nil => simp at h
    | cons b t =>
      simp only [readBytes]
      rw [ih (by simpa using h)]
      simp

theorem readLE_none_of_lt {n : Nat} {s : List Nat} (h : s.length < n) :
    readLE n s = none := by
  simp [readLE, readBytes_none_of_lt h]

theorem readLE_of_le {n : Nat} {s : List Nat} (h : n ≤ s.length) :
    readLE n s = some (fromLE (s.take n), s.drop n) := by
  simp [readLE, readBytes_of_le h]

theorem reverse_eq_reverse {α : Type} (l : List α) : reverse l = l.reverse := by
  have aux : ∀ (l acc : List α),
      l.foldl (fun acc b => b :: acc) acc = l.reverse ++ acc := by
    intro l
    induction l with
    | nil => intro acc; simp
    | cons x t ih => intro acc; simp [ih]
  show l.foldl (fun acc b => b :: acc) [] = l.reverse
  rw [aux]
  simp

/-! ## Helper lemmas: row loops -/

/-- A row parser that fails on fewer than `k` bytes and otherwise
consumes exactly `k` bytes. -/
def ExactRow {R : Type} (rowP : List Nat → Option (R × List Nat))
    (k : Nat) : Prop :=
  ∀ s : List Nat,
    (s.length < k → rowP s = none) ∧
    (k ≤ s.length → ∃ r, rowP s = some (r, s.drop k))

theorem exact_readLE (n : Nat) : ExactRow (readLE n) n := by
  intro s
  exact ⟨fun h => readLE_none_of_lt h, fun h => ⟨_, readLE_of_le h⟩⟩

theorem exact_point_from_data : ExactRow point_from_data 36 := by
  intro s
  constructor
  · intro h
    rcases Nat.lt_or_ge s.length 32 with h32 | h32
    · simp [point_from_data, readBytes_none_of_lt h32]
    · have h4 : (s.drop 32).length < 4 := by
        simp only [List.length_drop]; omega
      simp [point_from_data, readBytes_of_le h32, readLE_none_of_lt h4]
  · intro h
    have h32 : 32 ≤ s.length := by omega
    have h4 : 4 ≤ (s.drop 32).length := by
      simp only [List.length_drop]; omega
    have hdd : (s.drop 32).drop 4 = s.drop 36 := by
      rw [List.drop_drop]
    refine ⟨{ hash := s.take 32, index := fromLE ((s.drop 32).take 4) }, ?_⟩
    simp only [point_from_data, readBytes_of_le h32, readLE_of_le h4, hdd]

theorem exact_stealthRowParse : ExactRow stealthRowParse 84 := by
  intro s
  constructor
  · intro h
    rcases Nat.lt_or_ge s.length 32 with h32 | h32
    · simp [stealthRowParse, readBytes_none_of_lt h32]
    · rcases Nat.lt_or_ge s.length 52 with h52 | h52
      · have h20 : (s.drop 32).length < 20 := by
          simp only [List.length_drop]; omega
        simp [stealthRowParse, readBytes_of_le h32, readBytes_none_of_lt h20]
      · have h20 : 20 ≤ (s.drop 32).length := by
          simp only [List.length_drop]; omega
        have hdd : (s.drop 32).drop 20 = s.drop 52 := by
          rw [List.drop_drop]
        have h32b : (s.drop 52).length < 32 := by
          simp only [List.length_drop]; omega
        simp [stealthRowParse, readBytes_of_le h32, readBytes_of_le h20, hdd,
          readBytes_none_of_lt h32b]
  · intro h
    have h32 : 32 ≤ s.length := by omega
    have h20 : 20 ≤ (s.drop 32).length := by
      simp only [List.length_drop]; omega
    have hdd : (s.drop 32).drop 20 = s.drop 52 := by
      rw [List.drop_drop]
    have h32b : 32 ≤ (s.drop 52).length := by
      simp only [List.length_drop]; omega
    have hdd2 : (s.drop 52).drop 32 = s.drop 84 := by
      rw [List.drop_drop]
    refine ⟨{ ephemeral_public_key_hash := s.take 32,
              public_key_hash := (s.drop 32).take 20,
              transaction_hash := (s.drop 52).take 32 }, ?_⟩
    simp only [stealthRowParse, readBytes_of_le h32, readBytes_of_le h20, hdd,
      readBytes_of_le h32b, hdd2]

theorem exact_historyRowParse : ExactRow historyRowParse 49 := by
  intro s
  constructor
  · intro h
    cases s with
    | nil => rfl
    | cons b t =>
      have hlen : t.length < 48 := by
        simp only [List.length_cons] at h; omega
      simp only [historyRowParse, readByte]
      rcases Nat.lt_or_ge t.length 36 with h36 | h36
      · rw [(exact_point_from_data t).1 h36]
      · obtain ⟨pt, hp⟩ := (exact_point_from_data t).2 h36
        rcases Nat.lt_or_ge t.length 40 with h40 | h40
        · have h4 : (t.drop 36).length < 4 := by
            simp only [List.length_drop]; omega
          simp [hp, readLE_none_of_lt h4]
        · have h4 : 4 ≤ (t.drop 36).length := by
            simp only [List.length_drop]; omega
          have hdd : (t.drop 36).drop 4 = t.drop 40 := by
            rw [List.drop_drop]
          have h8 : (t.drop 40).length < 8 := by
            simp only [List.length_drop]; omega
          simp [hp, readLE_of_le h4, hdd, readLE_none_of_lt h8]
  · intro h
    cases s with
    | nil => simp at h
    | cons b t =>
      have hlen : 48 ≤ t.length := by simpa using h
      have h36 : 36 ≤ t.length := by omega
      obtain ⟨pt, hp⟩ := (exact_point_from_data t).2 h36
      have h4 : 4 ≤ (t.drop 36).length := by
        simp only [List.length_drop]; omega
      have hdd : (t.drop 36).drop 4 = t.drop 40 := by
        rw [List.drop_drop]
      have h8 : 8 ≤ (t.drop 40).length := by
        simp only [List.length_drop]; omega
      have hdd2 : (t.drop 40).drop 8 = t.drop 48 := by
        rw [List.drop_drop]
      have hdc : (b :: t).drop 49 = t.drop 48 := rfl
      refine ⟨{ kind := b, point := pt,
                height := fromLE ((t.drop 36).take 4),
                value := fromLE ((t.drop 40).take 8) }, ?_⟩
      simp only [historyRowParse, readByte, hp, readLE_of_le h4, hdd,
        readLE_of_le h8, hdd2, hdc]

theorem exact_expandedRowParse : ExactRow expandedRowParse 96 := by
  intro s
  constructor
  · intro h
    rcases Nat.lt_or_ge s.length 36 with h36 | h36
    · have hp := (exact_point_from_data s).1 h36
      simp [expandedRowParse, hp]
    · obtain ⟨pt, hp⟩ := (exact_point_from_data s).2 h36
      rcases Nat.lt_or_ge s.length 44 with h44 | h44
      · have h8 : (s.drop 36).length < 8 := by
          simp only [List.length_drop]; omega
        simp [expandedRowParse, hp, readLE_none_of_lt h8]
      · have h8 : 8 ≤ (s.drop 36).length := by
          simp only [List.length_drop]; omega
        have hdd : (s.drop 36).drop 8 = s.drop 44 := by
          rw [List.drop_drop]
        rcases Nat.lt_or_ge s.length 52 with h52 | h52
        · have h8b : (s.drop 44).length < 8 := by
            simp only [List.length_drop]; omega
          simp [expandedRowParse, hp, readLE_of_le h8, hdd,
            readLE_none_of_lt h8b]
        · have h8b : 8 ≤ (s.drop 44).length := by
            simp only [List.length_drop]; omega
          have hdd2 : (s.drop 44).drop 8 = s.drop 52 := by
            rw [List.drop_drop]
          rcases Nat.lt_or_ge s.length 88 with h88 | h88
          · have hp2 := (exact_point_from_data (s.drop 52)).1
              (by simp only [List.length_drop]; omega)
            simp [expandedRowParse, hp, readLE_of_le h8, hdd,
              readLE_of_le h8b, hdd2, hp2]
          · obtain ⟨pt2, hp2⟩ := (exact_point_from_data (s.drop 52)).2
              (by simp only [List.length_drop]; omega)
            have hdd3 : (s.drop 52).drop 36 = s.drop 88 := by
              rw [List.drop_drop]
            have h8c : (s.drop 88).length < 8 := by
              simp only [List.length_drop]; omega
            simp [expandedRowParse, hp, readLE_of_le h8, hdd,
              readLE_of_le h8b, hdd2, hp2, hdd3, readLE_none_of_lt h8c]
  · intro h
    obtain ⟨pt, hp⟩ := (exact_point_from_data s).2 (by omega)
    have h8 : 8 ≤ (s.drop 36).length := by
      simp only [List.length_drop]; omega
    have hdd : (s.drop 36).drop 8 = s.drop 44 := by
      rw [List.drop_drop]
    have h8b : 8 ≤ (s.drop 44).length := by
      simp only [List.length_drop]; omega
    have hdd2 : (s.drop 44).drop 8 = s.drop 52 := by
      rw [List.drop_drop]
    obtain ⟨pt2, hp2⟩ := (exact_point_from_data (s.drop 52)).2
      (by simp only [List.length_drop]; omega)
    have hdd3 : (s.drop 52).drop 36 = s.drop 88 := by
      rw [List.drop_drop]
    have h8c : 8 ≤ (s.drop 88).length := by
      simp only [List.length_drop]; omega
    have hdd4 : (s.drop 88).drop 8 = s.drop 96 := by
      rw [List.drop_drop]
    refine ⟨{ output := pt, output_height := fromLE ((s.drop 36).take 8),
              value := fromLE ((s.drop 44).take 8), spend := pt2,
              spend_height := fromLE ((s.drop 88).take 8) }, ?_⟩
    simp only [expandedRowParse, hp, readLE_of_le h8, hdd, readLE_of_le h8b,
      hdd2, hp2, hdd3, readLE_of_le h8c, hdd4]

theorem readRowsFuel_nil {R : Type}
    (rowP : List Nat → Option (R × List Nat)) (fuel : Nat) :
    readRowsFuel rowP fuel [] = some [] := by
  cases fuel <;> rfl

theorem readRowsFuel_none_of_not_dvd {R : Type}
    (rowP : List Nat → Option (R × List Nat)) (k : Nat) (hk : 0 < k)
    (hx : ExactRow rowP k) :
    ∀ (fuel : Nat) (s : List Nat), s.length ≤ fuel → ¬ k ∣ s.length →
      readRowsFuel rowP fuel s = none := by
  intro fuel
  induction fuel with
  | zero =>
    intro s hs hd
    cases s with
    | nil => exact absurd (dvd_zero k) (by simpa using hd)
    | cons b t => simp at hs
  | succ fuel ih =>
    intro s hs hd
    cases s with
    | nil => exact absurd (dvd_zero k) (by simpa using hd)
    | cons b t =>
      rcases Nat.lt_or_ge (b :: t).length k with hlt | hge
      · have hnone := (hx (b :: t)).1 hlt
        simp only [readRowsFuel]
        rw [hnone]
      · obtain ⟨r, hr⟩ := (hx (b :: t)).2 hge
        have hrest : ((b :: t).drop k).length = (b :: t).length - k := by
          simp
        have hle : ((b :: t).drop k).length ≤ fuel := by
          simp only [hrest]
          simp only [List.length_cons] at hs ⊢
          omega
        have hnd : ¬ k ∣ ((b :: t).drop k).length := by
          simp only [hrest]
          intro hdvd
          exact hd (by
            have : (b :: t).length = ((b :: t).length - k) + k := by omega
            rw [this]
            exact Nat.dvd_add hdvd dvd_rfl)
        simp only [readRowsFuel, hr, ih _ hle hnd]

theorem readRowsFuel_dvd_of_some {R : Type}
    (rowP : List Nat → Option (R × List Nat)) (k : Nat) (hk : 0 < k)
    (hx : ExactRow rowP k) :
    ∀ (fuel : Nat) (s : List Nat) (rs : List R),
      readRowsFuel rowP fuel s = some rs → k ∣ s.length := by
  intro fuel
  induction fuel with
  | zero =>
    intro s rs hsome
    cases s with
    | nil => simp
    | cons b t => simp [readRowsFuel] at hsome
  | succ fuel ih =>
    intro s rs hsome
    cases s with
    | nil => simp
    | cons b t =>
      rcases Nat.lt_or_ge (b :: t).length k with hlt | hge
      · have hnone := (hx (b :: t)).1 hlt
        simp only [readRowsFuel] at hsome
        rw [hnone] at hsome
        exact absurd hsome (by simp)
      · obtain ⟨r, hr⟩ := (hx (b :: t)).2 hge
        simp only [readRowsFuel, hr] at hsome
        rcases hrec : readRowsFuel rowP fuel ((b :: t).drop k) with _ | rs2
        · rw [hrec] at hsome
          simp at hsome
        · have hdvd := ih _ _ hrec
          simp only [List.length_drop] at hdvd
          have : (b :: t).length = ((b :: t).length - k) + k := by omega
          rw [this]
          exact Nat.dvd_add hdvd dvd_rfl

theorem readRows_none_of_not_dvd {R : Type}
    (rowP : List Nat → Option (R × List Nat)) (k : Nat) (hk : 0 < k)
    (hx : ExactRow rowP k) (s : List Nat) (hd : ¬ k ∣ s.length) :
    readRows rowP s = none :=
  readRowsFuel_none_of_not_dvd rowP k hk hx s.length s le_rfl hd

theorem readRows_dvd_of_some {R : Type}
    (rowP : List Nat → Option (R × List Nat)) (k : Nat) (hk : 0 < k)
    (hx : ExactRow rowP k) (s : List Nat) (rs : List R)
    (hsome : readRows rowP s = some rs) : k ∣ s.length :=
  readRowsFuel_dvd_of_some rowP k hk hx s.length s rs hsome

theorem not_dvd_append {k : Nat} (hk : 0 < k) {p extra : List Nat}
    (hp : k ∣ p.length) (h1 : 0 < extra.length) (h2 : extra.length < k) :
    ¬ k ∣ (p ++ extra).length := by
  simp only [List.length_append]
  intro hdvd
  have : k ∣ extra.length := (Nat.dvd_add_right hp).mp hdvd
  rcases this with ⟨c, hc⟩
  rcases c with _ | c
  · omega
  · have : k ≤ extra.length := by
      rw [hc]; exact Nat.le_mul_of_pos_right k (Nat.succ_pos c)
    omega

/-! ## Helper lemmas: history reconciliation -/

theorem firstPass_eq_filterMap (checksum : Point → Nat)
    (compact : List HistoryCompact) :
    firstPass checksum compact =
      compact.filterMap (fun output =>
        if output.kind == point_kind_output then
          some (initRow checksum output)
        else none) := by
  have aux : ∀ (l : List HistoryCompact) (acc : List History),
      l.foldl (fun result output =>
        if output.kind == point_kind_output then
          result ++ [initRow checksum output]
        else result) acc =
      acc ++ l.filterMap (fun output =>
        if output.kind == point_kind_output then
          some (initRow checksum output)
        else none) := by
    intro l
    induction l with
    | nil => intro acc; simp
    | cons x t ih =>
      intro acc
      rw [List.foldl_cons, ih, List.filterMap_cons]
      by_cases hx : x.kind = point_kind_output
      · simp [hx]
      · simp [hx]
  simpa [firstPass] using aux compact []

theorem expand_stealth_eq_map (compact : List StealthCompact) :
    expand_stealth compact =
      compact.map (fun inp =>
        { ephemeral_public_key :=
            [ephemeral_public_key_sign] ++ inp.ephemeral_public_key_hash,
          public_key_hash := reverse inp.public_key_hash,
          transaction_hash := inp.transaction_hash }) := by
  have aux : ∀ (l : List StealthCompact) (acc : List Stealth),
      l.foldl (fun result inp =>
        result ++
          [{ ephemeral_public_key :=
               [ephemeral_public_key_sign] ++ inp.ephemeral_public_key_hash,
             public_key_hash := reverse inp.public_key_hash,
             transaction_hash := inp.transaction_hash }]) acc =
      acc ++ l.map (fun inp =>
        { ephemeral_public_key :=
            [ephemeral_public_key_sign] ++ inp.ephemeral_public_key_hash,
          public_key_hash := reverse inp.public_key_hash,
          transaction_hash := inp.transaction_hash }) := by
    intro l
    induction l with
    | nil => intro acc; simp
    | cons x t ih =>
      intro acc
      rw [List.foldl_cons, ih, List.map_cons]
      simp
  simpa [expand_stealth] using aux compact []

theorem applySpend_eq_applySpendSpec (spend : HistoryCompact)
    (rows : List History) :
    applySpend spend rows = applySpendSpec spend rows := by
  induction rows with
  | nil => rfl
  | cons row rest ih =>
    by_cases hm : row.isMatch spend
    · simp [applySpend, applySpendSpec, hm, List.dropWhile_cons,
        List.takeWhile_cons]
    · simp only [Bool.not_eq_true] at hm
      simp only [applySpend, applySpendSpec, hm, Bool.false_eq_true,
        if_false, List.dropWhile_cons, List.takeWhile_cons, Bool.not_false,
        if_true, ih]
      rcases hdw : rest.dropWhile (fun row => ! row.isMatch spend) with _ | ⟨r, t⟩
      · simp [applySpendSpec, hdw]
      · simp [applySpendSpec, hdw]

theorem secondPass_eq_secondPassSpec (compact : List HistoryCompact)
    (rows : List History) :
    secondPass compact rows = secondPassSpec compact rows := by
  have hfun : (fun (result : List History) (spend : HistoryCompact) =>
      if spend.kind == point_kind_spend then applySpend spend result
      else result) =
    (fun (result : List History) (spend : HistoryCompact) =>
      if spend.kind == point_kind_spend then applySpendSpec spend result
      else result) := by
    funext result spend
    rw [applySpend_eq_applySpendSpec]
  simp only [secondPass, secondPassSpec, hfun]

theorem expand_history_eq_spec (checksum : Point → Nat)
    (compact : List HistoryCompact) :
    expand_history checksum compact = expand_history_spec checksum compact := by
  simp only [expand_history, expand_history_spec, secondPass_eq_secondPassSpec]

/-- The projection of a history row that the reconciliation's second and
final passes never change. -/
def outputPart (row : History) : Point × Nat × Nat :=
  (row.output, row.output_height, row.value)

theorem applySpend_map_outputPart (spend : HistoryCompact)
    (rows : List History) :
    (applySpend spend rows).map outputPart = rows.map outputPart := by
  induction rows with
  | nil => rfl
  | cons row rest ih =>
    by_cases hm : row.isMatch spend
    · simp [applySpend, hm, outputPart]
    · simp only [Bool.not_eq_true] at hm
      simp [applySpend, hm, ih]

theorem secondPass_map_outputPart (compact : List HistoryCompact)
    (rows : List History) :
    (secondPass compact rows).map outputPart = rows.map outputPart := by
  induction compact generalizing rows with
  | nil => rfl
  | cons spend t ih =>
    by_cases hs : spend.kind == point_kind_spend
    · simp only [secondPass, List.foldl_cons, hs, if_true]
      rw [show (List.foldl (fun result spend =>
          if spend.kind == point_kind_spend then applySpend spend result
          else result) (applySpend spend rows) t) =
          secondPass t (applySpend spend rows) from rfl]
      rw [ih, applySpend_map_outputPart]
    · simp only [Bool.not_eq_true] at hs
      simp only [secondPass, List.foldl_cons, hs, Bool.false_eq_true, if_false]
      exact ih rows

theorem clearPass_map_outputPart (rows : List History) :
    (clearPass rows).map outputPart = rows.map outputPart := by
  simp only [clearPass, List.map_map]
  apply List.map_congr_left
  intro row _
  by_cases hb : row.spend.hash == null_hash
  · simp [Function.comp, hb, outputPart]
  · simp only [Bool.not_eq_true] at hb
    simp [Function.comp, hb]

theorem mem_applySpend_of_ne {r : History} {rows : List History}
    (spend : HistoryCompact) (hmem : r ∈ rows)
    (hne : spend.value ≠ r.spend_height) : r ∈ applySpend spend rows := by
  induction rows with
  | nil => simp at hmem
  | cons row rest ih =>
    by_cases hm : row.isMatch spend
    · rcases List.mem_cons.mp hmem with hr | hr
      · exfalso
        apply hne
        have hmm := hm
        simp only [History.isMatch, Bool.and_eq_true, beq_iff_eq] at hmm
        rw [hr]
        exact hmm.1.symm
      · simp [applySpend, hm, hr]
    · simp only [Bool.not_eq_true] at hm
      rcases List.mem_cons.mp hmem with hr | hr
      · simp [applySpend, hm, hr]
      · simp [applySpend, hm, ih hr]

theorem mem_secondPass_of_ne {r : History} {rows : List History}
    (compact : List HistoryCompact) (hmem : r ∈ rows)
    (hne : ∀ s ∈ compact, s.kind = point_kind_spend →
      s.value ≠ r.spend_height) : r ∈ secondPass compact rows := by
  induction compact generalizing rows with
  | nil => exact hmem
  | cons spend t ih =>
    by_cases hs : spend.kind == point_kind_spend
    · simp only [secondPass, List.foldl_cons, hs, if_true]
      have hs' : spend.kind = point_kind_spend := by
        simpa using hs
      refine ih (mem_applySpend_of_ne spend hmem
        (hne spend (List.mem_cons_self spend t) hs')) ?_
      intro s hsmem hk
      exact hne s (List.mem_cons_of_mem spend hsmem) hk
    · simp only [Bool.not_eq_true] at hs
      simp only [secondPass, List.foldl_cons, hs, Bool.false_eq_true, if_false]
      exact ih hmem (fun s hsmem hk => hne s (List.mem_cons_of_mem spend hsmem) hk)

theorem spendMatchCheck_true {spend : HistoryCompact} {rows : List History}
    {b : Bool} (h : spendMatchCheck spend rows = some b) : b = true := by
  induction rows with
  | nil => simp [spendMatchCheck] at h
  | cons row rest ih =>
    by_cases hm : row.isMatch spend
    · simp only [spendMatchCheck, hm, if_true, Option.some.injEq] at h
      have := hm
      simp only [History.isMatch, Bool.and_eq_true] at this
      rw [← h]
      exact this.1
    · simp only [Bool.not_eq_true] at hm
      simp only [spendMatchCheck, hm, Bool.false_eq_true, if_false] at h
      exact ih h

/-! ## Helper lemmas: spend availability

The inner scan of the second pass updates the first matching row and
stops.  The lemmas below track, through the pass, a distinguished
still-unspent row `r0` with stored checksum `K`: as long as every spend
carrying previous-checksum `K` finds an available absorber among the
rows placed before `r0`, the scan never reaches `r0`. -/

theorem applySpend_append_of_not_match (spend : HistoryCompact)
    (B rows : List History) (hB : ∀ r ∈ B, r.isMatch spend = false) :
    applySpend spend (B ++ rows) = B ++ applySpend spend rows := by
  induction B with
  | nil => rfl
  | cons r B ih =>
    have hr := hB r (List.mem_cons_self r B)
    rw [List.cons_append]
    rw [show applySpend spend (r :: (B ++ rows)) =
        r :: applySpend spend (B ++ rows) by simp [applySpend, hr]]
    rw [ih (fun r2 hr2 => hB r2 (List.mem_cons_of_mem r hr2)), List.cons_append]

theorem applySpend_append_of_match (spend : HistoryCompact)
    (B rows : List History) (hB : ∃ r ∈ B, r.isMatch spend = true) :
    applySpend spend (B ++ rows) = applySpend spend B ++ rows := by
  induction B with
  | nil => simp at hB
  | cons r B ih =>
    by_cases hr : r.isMatch spend
    · simp [applySpend, hr]
    · simp only [Bool.not_eq_true] at hr
      have hB2 : ∃ r2 ∈ B, r2.isMatch spend = true := by
        rcases hB with ⟨r2, hmem, hm⟩
        rcases List.mem_cons.mp hmem with he | hmem2
        · rw [he, hr] at hm
          exact absurd hm (by simp)
        · exact ⟨r2, hmem2, hm⟩
      rw [List.cons_append]
      rw [show applySpend spend (r :: (B ++ rows)) =
          r :: applySpend spend (B ++ rows) by simp [applySpend, hr]]
      rw [ih hB2]
      rw [show applySpend spend (r :: B) = r :: applySpend spend B by
        simp [applySpend, hr]]
      rw [List.cons_append]

theorem countP_applySpend_ge (K : Nat) (spend : HistoryCompact)
    (rows : List History) :
    List.countP (History.isAvailable K) rows -
        (if spend.value = K then 1 else 0) ≤
      List.countP (History.isAvailable K) (applySpend spend rows) := by
  induction rows with
  | nil => simp [applySpend]
  | cons r rest ih =>
    by_cases hm : r.isMatch spend
    · have hmm := hm
      simp only [History.isMatch, Bool.and_eq_true, beq_iff_eq] at hmm
      rw [show applySpend spend (r :: rest) =
          { r with spend := spend.point, spend_height := spend.height } ::
            rest by simp [applySpend, hm]]
      rw [List.countP_cons, List.countP_cons]
      by_cases hv : spend.value = K
      · have hav : History.isAvailable K r = true := by
          simp [History.isAvailable, hmm.1, hmm.2, hv]
        rw [hav, if_pos rfl, if_pos hv]
        split_ifs <;> omega
      · have hav : History.isAvailable K r = false := by
          simp [History.isAvailable, hmm.1, hv]
        rw [hav, if_neg (by simp : ¬ (false = true)), if_neg hv]
        split_ifs <;> omega
    · simp only [Bool.not_eq_true] at hm
      rw [show applySpend spend (r :: rest) = r :: applySpend spend rest by
        simp [applySpend, hm]]
      rw [List.countP_cons, List.countP_cons]
      split_ifs at ih ⊢ <;> omega

theorem countP_firstPass (checksum : Point → Nat) (K : Nat)
    (l : List HistoryCompact) :
    List.countP (History.isAvailable K) (firstPass checksum l) =
      List.countP (fun r => r.kind == point_kind_output &&
        checksum r.point == K) l := by
  rw [firstPass_eq_filterMap]
  induction l with
  | nil => rfl
  | cons x t ih =>
    rw [List.filterMap_cons, List.countP_cons]
    cases hx : x.kind == point_kind_output
    · simpa [hx] using ih
    · rw [if_pos rfl]
      rw [List.countP_cons]
      have hav : History.isAvailable K (initRow checksum x) =
          (checksum x.point == K) := by
        simp [History.isAvailable, initRow]
      rw [hav, ih]
      simp [hx]

theorem secondPass_keeps_protected (K : Nat) :
    ∀ (l : List HistoryCompact) (B A : List History) (r0 : History),
      r0.spend_height = K → r0.spend.hash = null_hash →
      List.countP (fun s => s.kind == point_kind_spend && s.value == K) l ≤
        List.countP (History.isAvailable K) B →
      ∃ B2 A2, secondPass l (B ++ r0 :: A) = B2 ++ r0 :: A2 := by
  intro l
  induction l with
  | nil =>
    intro B A r0 h1 h2 hcnt
    exact ⟨B, A, rfl⟩
  | cons x t ih =>
    intro B A r0 h1 h2 hcnt
    rw [show secondPass (x :: t) (B ++ r0 :: A) =
        secondPass t (if x.kind == point_kind_spend then
          applySpend x (B ++ r0 :: A) else B ++ r0 :: A) from rfl]
    rw [List.countP_cons] at hcnt
    cases hk : x.kind == point_kind_spend
    · rw [if_neg (by simp : ¬ (false = true))]
      have hx0 : (x.kind == point_kind_spend && x.value == K) = false := by
        simp [hk]
      rw [hx0, if_neg (by simp : ¬ (false = true))] at hcnt
      exact ih B A r0 h1 h2 (by omega)
    · rw [if_pos rfl]
      by_cases hex : ∃ r ∈ B, r.isMatch x = true
      · rw [applySpend_append_of_match x B (r0 :: A) hex]
        have hge := countP_applySpend_ge K x B
        by_cases hv : x.value = K
        · have hx1 : (x.kind == point_kind_spend && x.value == K) = true := by
            simp [hk, hv]
          rw [hx1, if_pos rfl] at hcnt
          rw [if_pos hv] at hge
          exact ih (applySpend x B) A r0 h1 h2 (by omega)
        · have hx0 : (x.kind == point_kind_spend && x.value == K) = false := by
            simp [hv]
          rw [hx0, if_neg (by simp : ¬ (false = true))] at hcnt
          rw [if_neg hv] at hge
          exact ih (applySpend x B) A r0 h1 h2 (by omega)
      · by_cases hv : x.value = K
        · exfalso
          have hx1 : (x.kind == point_kind_spend && x.value == K) = true := by
            simp [hk, hv]
          rw [hx1, if_pos rfl] at hcnt
          have hpos : 0 < List.countP (History.isAvailable K) B := by omega
          obtain ⟨r, hmem, hav⟩ := List.countP_pos.mp hpos
          apply hex
          refine ⟨r, hmem, ?_⟩
          simp only [History.isAvailable, Bool.and_eq_true, beq_iff_eq] at hav
          simp [History.isMatch, hav.1, hav.2, hv]
        · have hr0 : r0.isMatch x = false := by
            have hKx : ¬ (K = x.value) := fun h => hv h.symm
            simp [History.isMatch, h1, h2, hKx]
          have hBfalse : ∀ r ∈ B, r.isMatch x = false := by
            intro r hmem
            rcases hb : r.isMatch x
            · rfl
            · exact absurd ⟨r, hmem, hb⟩ hex
          rw [applySpend_append_of_not_match x B (r0 :: A) hBfalse]
          rw [show applySpend x (r0 :: A) = r0 :: applySpend x A by
            simp [applySpend, hr0]]
          have hx0 : (x.kind == point_kind_spend && x.value == K) = false := by
            simp [hv]
          rw [hx0, if_neg (by simp : ¬ (false = true))] at hcnt
          exact ih B (applySpend x A) r0 h1 h2 (by omega)

/-! ## Claim theorems -/

/-- Claim C5: stealth expansion is an order-preserving one-to-one mapping
in which each output row's ephemeral public key is the fixed sign byte
prepended to the transmitted hash, the public-key hash is the exact
byte-reversal of the compact row's public-key hash, and the transaction
hash passes through unchanged. -/
theorem expand_stealth_pointwise (compact : List StealthCompact) :
    (expand_stealth compact).length = compact.length ∧
    ∀ (i : Nat) (row : StealthCompact), compact[i]? = some row →
      (expand_stealth compact)[i]? =
        some { ephemeral_public_key :=
                 ephemeral_public_key_sign :: row.ephemeral_public_key_hash,
               public_key_hash := row.public_key_hash.reverse,
               transaction_hash := row.transaction_hash } := by
  constructor
  · rw [expand_stealth_eq_map]
    exact List.length_map compact _
  · intro i row h
    rw [expand_stealth_eq_map, List.getElem?_map, h]
    simp [reverse_eq_reverse]

/-- Witness for C5 at one concrete row. -/
theorem expand_stealth_pointwise_witness :
    (expand_stealth [{ ephemeral_public_key_hash := [3, 4],
                       public_key_hash := [5, 6],
                       transaction_hash := [7] }])[0]? =
      some { ephemeral_public_key := [ephemeral_public_key_sign, 3, 4],
             public_key_hash := [6, 5], transaction_hash := [7] } :=
  (expand_stealth_pointwise
      [{ ephemeral_public_key_hash := [3, 4], public_key_hash := [5, 6],
         transaction_hash := [7] }]).2 0
    { ephemeral_public_key_hash := [3, 4], public_key_hash := [5, 6],
      transaction_hash := [7] } rfl

/-- Claim C6: for `blockchain.fetch_stealth` and the prefix overload of
`address.subscribe`, a prefix of bit-length at most 255 is accepted and a
request is produced, while a prefix of bit-length 256 or more is rejected
synchronously (the embedding's `none`: error handler invoked, no request
built, no decoder ever bound). -/
theorem prefix_validation_boundary (pfx : Binary) (from_height : Nat)
    (discriminator : Nat) :
    (pfx.size ≤ 255 →
      (blockchain_fetch_stealth pfx from_height).isSome = true ∧
      (address_subscribe_binary discriminator pfx).isSome = true) ∧
    (256 ≤ pfx.size →
      blockchain_fetch_stealth pfx from_height = none ∧
      address_subscribe_binary discriminator pfx = none) := by
  constructor
  · intro h
    have hn : ¬ pfx.size > max_uint8 := by
      simp only [max_uint8]; omega
    constructor
    · simp [blockchain_fetch_stealth, hn]
    · simp [address_subscribe_binary, hn]
  · intro h
    have hy : pfx.size > max_uint8 := by
      simp only [max_uint8]; omega
    constructor
    · simp [blockchain_fetch_stealth, hy]
    · simp [address_subscribe_binary, hy]

/-- Witness for C6 at the boundary bit-lengths 255 and 256. -/
theorem prefix_validation_boundary_witness :
    ((blockchain_fetch_stealth { size := 255, blocks := List.replicate 32 0 }
        0).isSome = true ∧
     (address_subscribe_binary 0
        { size := 255, blocks := List.replicate 32 0 }).isSome = true) ∧
    (blockchain_fetch_stealth { size := 256, blocks := List.replicate 32 0 }
        0 = none ∧
     address_subscribe_binary 0
        { size := 256, blocks := List.replicate 32 0 } = none) :=
  ⟨(prefix_validation_boundary
      { size := 255, blocks := List.replicate 32 0 } 0 0).1 (by decide),
   (prefix_validation_boundary
      { size := 256, blocks := List.replicate 32 0 } 0 0).2 (by decide)⟩

/-- Claim C7: the `blockchain.fetch_history` request payload is exactly
the 1-byte address version, the 20-byte address hash byte-reversed, and
the from-height as 4 little-endian bytes; instantiated at version 0,
hash bytes 01..14 and from-height 100. -/
theorem blockchain_fetch_history_payload :
    (∀ (address : PaymentAddress) (from_height : Nat),
      (blockchain_fetch_history address from_height).payload =
        [address.version] ++ address.hash.reverse ++ toLE 4 from_height) ∧
    (blockchain_fetch_history
        { version := 0,
          hash := [1, 2, 3, 4, 5, 6, 7, 8, 9, 10,
                   11, 12, 13, 14, 15, 16, 17, 18, 19, 20] } 100).payload =
      [0] ++
        [20, 19, 18, 17, 16, 15, 14, 13, 12, 11,
         10, 9, 8, 7, 6, 5, 4, 3, 2, 1] ++ [100, 0, 0, 0] := by
  constructor
  · intro address from_height
    simp [blockchain_fetch_history, reverse_eq_reverse]
  · decide

/-- Claim C8: `address.fetch_history2` differs from
`blockchain.fetch_history` only in sending the address hash in canonical
(non-reversed) order, and binds the same compact-history decoder
(`decode_history`, hence the same reconciliation path). -/
theorem address_fetch_history2_payload (address : PaymentAddress)
    (from_height : Nat) :
    (address_fetch_history2 address from_height).payload =
      [address.version] ++ address.hash ++ toLE 4 from_height ∧
    (blockchain_fetch_history address from_height).payload =
      [address.version] ++ address.hash.reverse ++ toLE 4 from_height ∧
    (address_fetch_history2 address from_height).decoder =
      DecoderKind.history ∧
    (address_fetch_history2 address from_height).decoder =
      (blockchain_fetch_history address from_height).decoder := by
  refine ⟨rfl, ?_, rfl, rfl⟩
  simp [blockchain_fetch_history, reverse_eq_reverse]

/-- Claim C10: the reconciliation result has exactly one row per
Output-kind input row, in input order, carrying that output's point,
height and value; Spend-kind rows (matched or not) contribute no rows of
their own. -/
theorem expand_history_one_row_per_output (checksum : Point → Nat)
    (compact : List HistoryCompact) :
    (expand_history checksum compact).map outputPart =
      (compact.filter (fun row => row.kind == point_kind_output)).map
        (fun row => (row.point, row.height, row.value)) := by
  rw [expand_history, clearPass_map_outputPart, secondPass_map_outputPart,
    firstPass_eq_filterMap]
  induction compact with
  | nil => rfl
  | cons x t ih =>
    rw [List.filterMap_cons, List.filter_cons]
    cases hx : x.kind == point_kind_output
    · simpa using ih
    · simpa [outputPart, initRow] using ih

/-- Claim C2: an Output-kind row for which no matching Spend-kind row
remains available yields a result row with the sentinel spend
`{null hash, max index}` and spend-height `max_uint32`.  "No spend
remains available for it" is formalised by counting: every spend
carrying this output's checksum is absorbed by a same-checksum output
occurring earlier in the input (each earlier output absorbs at most one
such spend), so the second pass's first-match scan never reaches this
output's row.  This covers both an output whose checksum no spend
carries at all, and a later duplicate-checksum output whose matching
spends were all consumed by earlier rows. -/
theorem expand_history_unmatched_sentinel (checksum : Point → Nat)
    (pre post : List HistoryCompact) (o : HistoryCompact)
    (hkind : o.kind = point_kind_output)
    (havail : List.countP (fun s => s.kind == point_kind_spend &&
        s.value == checksum o.point) (pre ++ o :: post) ≤
      List.countP (fun r => r.kind == point_kind_output &&
        checksum r.point == checksum o.point) pre) :
    { output := o.point, output_height := o.height, value := o.value,
      spend := { hash := null_hash, index := max_uint32 },
      spend_height := max_uint32 } ∈
      expand_history checksum (pre ++ o :: post) := by
  have hsplit : firstPass checksum (pre ++ o :: post) =
      firstPass checksum pre ++
        initRow checksum o :: firstPass checksum post := by
    rw [firstPass_eq_filterMap, firstPass_eq_filterMap,
      firstPass_eq_filterMap, List.filterMap_append, List.filterMap_cons]
    simp [hkind]
  have hcnt : List.countP (fun s => s.kind == point_kind_spend &&
      s.value == checksum o.point) (pre ++ o :: post) ≤
      List.countP (History.isAvailable (checksum o.point))
        (firstPass checksum pre) := by
    rw [countP_firstPass]
    exact havail
  obtain ⟨B2, A2, hsp⟩ := secondPass_keeps_protected (checksum o.point)
    (pre ++ o :: post) (firstPass checksum pre) (firstPass checksum post)
    (initRow checksum o) rfl rfl hcnt
  have hf : (fun row =>
      if row.spend.hash == null_hash then
        { row with spend_height := max_uint32 }
      else row) (initRow checksum o) =
      { output := o.point, output_height := o.height, value := o.value,
        spend := { hash := null_hash, index := max_uint32 },
        spend_height := max_uint32 } := by
    simp [initRow]
  rw [expand_history, hsplit, hsp, clearPass, ← hf]
  exact List.mem_map_of_mem _
    (List.mem_append_right B2 (List.mem_cons_self _ A2))

/-- Witness for C2 in the duplicate-checksum scenario: two outputs share
checksum 5 and the single spend with previous-checksum 5 is absorbed by
the earlier one, so the later output keeps the full sentinel. -/
theorem expand_history_unmatched_sentinel_witness :
    { output := { hash := [2], index := 5 }, output_height := 2,
      value := 20,
      spend := { hash := null_hash, index := max_uint32 },
      spend_height := max_uint32 } ∈
      expand_history (fun p => p.index)
        ([{ kind := 0, point := { hash := [1], index := 5 }, height := 1,
            value := 10 }] ++
          { kind := 0, point := { hash := [2], index := 5 }, height := 2,
            value := 20 } ::
          [{ kind := 1, point := { hash := [3], index := 9 }, height := 3,
             value := 5 }]) :=
  expand_history_unmatched_sentinel (fun p => p.index)
    [{ kind := 0, point := { hash := [1], index := 5 }, height := 1,
       value := 10 }]
    [{ kind := 1, point := { hash := [3], index := 9 }, height := 3,
       value := 5 }]
    { kind := 0, point := { hash := [2], index := 5 }, height := 2,
      value := 20 }
    rfl (by decide)

/-- Claim C1 (amended): the reconciliation implements the specified
two-pass first-match algorithm (`expand_history_spec`, worded as the
spec's scan), and for one Output row of checksum C and one Spend row
with previous-checksum C — provided the Spend row's point hash is not
the null hash — the result is the single row whose spend fields come
from the Spend row.  (Without that proviso the final pass treats the
spent row as still unspent and rewrites its spend-height to the
sentinel, refuting the unamended claim; see the counterexample.) -/
theorem expand_history_two_pass (checksum : Point → Nat)
    (o s : HistoryCompact) (ho : o.kind = point_kind_output)
    (hs : s.kind = point_kind_spend) (hc : checksum o.point = s.value)
    (hnull : s.point.hash ≠ null_hash) :
    (∀ compact, expand_history checksum compact =
      expand_history_spec checksum compact) ∧
    expand_history checksum [o, s] =
      [{ output := o.point, output_height := o.height, value := o.value,
         spend := s.point, spend_height := s.height }] := by
  refine ⟨expand_history_eq_spec checksum, ?_⟩
  simp [expand_history, firstPass, secondPass, clearPass, applySpend,
    History.isMatch, initRow, ho, hs, hc, hnull, point_kind_output,
    point_kind_spend]

/-- Witness for C1's amended theorem at concrete rows. -/
theorem expand_history_two_pass_witness :
    expand_history (fun p => p.index)
      [{ kind := 0, point := { hash := [9], index := 7 }, height := 1,
         value := 5 },
       { kind := 1, point := { hash := [8], index := 3 }, height := 2,
         value := 7 }] =
      [{ output := { hash := [9], index := 7 }, output_height := 1,
         value := 5, spend := { hash := [8], index := 3 },
         spend_height := 2 }] :=
  (expand_history_two_pass (fun p => p.index)
    { kind := 0, point := { hash := [9], index := 7 }, height := 1,
      value := 5 }
    { kind := 1, point := { hash := [8], index := 3 }, height := 2,
      value := 7 }
    rfl rfl rfl (by decide)).2

/-- Counterexample to C1 as stated: a Spend row whose point hash is the
null hash satisfies the claim's hypotheses (Output row of checksum C,
Spend row with previous-checksum C), yet the resulting row's spend
height is the unspent sentinel rather than the Spend row's height,
because the final pass judges spent-ness by the spend hash alone. -/
theorem expand_history_two_pass_counterexample :
    (({ kind := 0, point := { hash := [9], index := 7 }, height := 1,
        value := 5 } : HistoryCompact).kind = point_kind_output) ∧
    (({ kind := 1, point := { hash := null_hash, index := 3 }, height := 2,
        value := 7 } : HistoryCompact).kind = point_kind_spend) ∧
    ((fun (p : Point) => p.index)
        ({ kind := 0, point := { hash := [9], index := 7 }, height := 1,
           value := 5 } : HistoryCompact).point =
      ({ kind := 1, point := { hash := null_hash, index := 3 }, height := 2,
         value := 7 } : HistoryCompact).value) ∧
    expand_history (fun p => p.index)
      [{ kind := 0, point := { hash := [9], index := 7 }, height := 1,
         value := 5 },
       { kind := 1, point := { hash := null_hash, index := 3 }, height := 2,
         value := 7 }] ≠
      [{ output := { hash := [9], index := 7 }, output_height := 1,
         value := 5, spend := { hash := null_hash, index := 3 },
         spend_height := 2 }] := by
  refine ⟨rfl, rfl, rfl, ?_⟩
  decide

/-- Claim C9 (amended): whenever a Spend-kind row matches an
Output-derived result row in the second pass, what the match guarantees
is that the matched row's stored checksum (held in `spend_height`)
equals the spend row's 8-byte wire value slot (its previous-checksum).
The asserted condition `row.value == spend.value` compares the output's
amount with that checksum instead and is not implied; it fails whenever
the matched output's value differs from its own checksum (see the
counterexample). -/
theorem history_match_checksum_eq (checksum : Point → Nat)
    (compact : List HistoryCompact) :
    ∀ b ∈ historyMatchChecks checksum compact, b = true := by
  have aux : ∀ (l : List HistoryCompact) (acc : List History × List Bool),
      (∀ b ∈ acc.2, b = true) →
      ∀ b ∈ (l.foldl (fun acc spend =>
        if spend.kind == point_kind_spend then
          (applySpend spend acc.1,
           acc.2 ++ (spendMatchCheck spend acc.1).toList)
        else acc) acc).2, b = true := by
    intro l
    induction l with
    | nil => intro acc hacc; exact hacc
    | cons x t ih =>
      intro acc hacc
      rw [List.foldl_cons]
      cases hx : x.kind == point_kind_spend
      · rw [if_neg (by simp [hx])]
        exact ih acc hacc
      · rw [if_pos (by simp [hx])]
        apply ih
        intro b hb
        rcases List.mem_append.mp hb with hb | hb
        · exact hacc b hb
        · have hsome : spendMatchCheck x acc.1 = some b := by
            rcases hck : spendMatchCheck x acc.1 with _ | b2
            · rw [hck] at hb; simp at hb
            · rw [hck] at hb
              simp only [Option.toList_some, List.mem_singleton] at hb
              rw [hb]
          exact spendMatchCheck_true hsome
  intro b hb
  exact aux compact (firstPass checksum compact, []) (by simp) b hb

/-- Witness for C9's amended theorem: one matching spend produces the
check outcome `true`. -/
theorem history_match_checksum_eq_witness :
    true ∈ historyMatchChecks (fun p => p.index)
      [{ kind := 0, point := { hash := [9], index := 7 }, height := 1,
         value := 5 },
       { kind := 1, point := { hash := [8], index := 3 }, height := 2,
         value := 7 }] ∧
    true = true :=
  ⟨by decide,
   history_match_checksum_eq (fun p => p.index)
     [{ kind := 0, point := { hash := [9], index := 7 }, height := 1,
        value := 5 },
      { kind := 1, point := { hash := [8], index := 3 }, height := 2,
        value := 7 }] true (by decide)⟩

/-- The compact history payload of the C9 counterexample: one Output row
(point hash 32 bytes of 9, index 7, height 1, value 5) followed by one
Spend row (point hash 32 bytes of 8, index 3, height 2, wire value slot
7, i.e. previous-checksum 7). -/
def c9payload : List Nat :=
  [0] ++ List.replicate 32 9 ++ toLE 4 7 ++ toLE 4 1 ++ toLE 8 5 ++
    ([1] ++ List.replicate 32 8 ++ toLE 4 3 ++ toLE 4 2 ++ toLE 8 7)

/-- The rows `c9payload` decodes to. -/
def c9rows : List HistoryCompact :=
  [{ kind := 0, point := { hash := List.replicate 32 9, index := 7 },
     height := 1, value := 5 },
   { kind := 1, point := { hash := List.replicate 32 8, index := 3 },
     height := 2, value := 7 }]

/-- The checksum model of the C9 counterexample (the checksum of a point
is its index; the refutation only needs some decodable payload whose
matched output's value differs from its checksum). -/
def c9checksum : Point → Nat := fun p => p.index

/-- Counterexample to C9 as stated: a decodable payload on which the
spend matches the output row (checksum 7 against previous-checksum 7)
but the asserted equality `row.value == spend.value` evaluates to
`false` (output value 5 against wire slot 7). -/
theorem history_assert_counterexample :
    readRows historyRowParse c9payload = some c9rows ∧
    decode_history c9checksum c9payload =
      some (expand_history c9checksum c9rows) ∧
    historyAsserts c9checksum c9rows = [false] := by
  refine ⟨by decide, by decide, by decide⟩

/-- Claim C3: every response decoder fails — and so never invokes its
success handler — when bytes remain unread after the expected fields are
extracted, even if all expected fields parsed successfully.  For the
fixed-layout decoders this is a successful prefix parse with a non-empty
rest; for the repeating-row decoders trailing bytes too short to form a
further row make the decode of the extended payload fail.  The external
`transaction::from_data` and `header::from_data` deserialisers and
`point::checksum` are universally quantified. -/
theorem decoders_require_exhaustion (Tx Hd : Type)
    (tx_from_data : List Nat → Option (Tx × List Nat))
    (header_from_data : List Nat → Option (Hd × List Nat))
    (checksum : Point → Nat) :
    (∀ p : List Nat, p ≠ [] → decode_empty p = none) ∧
    (∀ (p : List Nat) (v : Nat) (rest : List Nat),
      readLE 4 p = some (v, rest) → rest ≠ [] → decode_height p = none) ∧
    (∀ (p : List Nat) (v w : Nat) (rest rest2 : List Nat),
      readLE 4 p = some (v, rest) → readLE 4 rest = some (w, rest2) →
      rest2 ≠ [] → decode_transaction_index p = none) ∧
    (∀ (p : List Nat) (tx : Tx) (rest : List Nat),
      tx_from_data p = some (tx, rest) → rest ≠ [] →
      decode_transaction tx_from_data p = none) ∧
    (∀ (p : List Nat) (hd : Hd) (rest : List Nat),
      header_from_data p = some (hd, rest) → rest ≠ [] →
      decode_block_header header_from_data p = none) ∧
    (∀ (p : List Nat) (rows : List Nat) (extra : List Nat),
      decode_validate p = some rows → 0 < extra.length →
      extra.length < 4 → decode_validate (p ++ extra) = none) ∧
    (∀ (p : List Nat) (rows : List Stealth) (extra : List Nat),
      decode_stealth p = some rows → 0 < extra.length →
      extra.length < 84 → decode_stealth (p ++ extra) = none) ∧
    (∀ (p : List Nat) (rows : List History) (extra : List Nat),
      decode_history checksum p = some rows → 0 < extra.length →
      extra.length < 49 → decode_history checksum (p ++ extra) = none) ∧
    (∀ (p : List Nat) (rows : List History) (extra : List Nat),
      decode_expanded_history p = some rows → 0 < extra.length →
      extra.length < 96 → decode_expanded_history (p ++ extra) = none) := by
  refine ⟨?_, ?_, ?_, ?_, ?_, ?_, ?_, ?_, ?_⟩
  · intro p hp
    simp [decode_empty, hp]
  · intro p v rest h1 h2
    simp [decode_height, h1, h2]
  · intro p v w rest rest2 h1 h2 h3
    simp [decode_transaction_index, h1, h2, h3]
  · intro p tx rest h1 h2
    simp [decode_transaction, h1, h2]
  · intro p hd rest h1 h2
    simp [decode_block_header, h1, h2]
  · intro p rows extra hsome h1 h2
    have hdvd := readRows_dvd_of_some (readLE 4) 4 (by norm_num)
      (exact_readLE 4) p rows hsome
    exact readRows_none_of_not_dvd (readLE 4) 4 (by norm_num)
      (exact_readLE 4) (p ++ extra) (not_dvd_append (by norm_num) hdvd h1 h2)
  · intro p rows extra hsome h1 h2
    rcases hm : readRows stealthRowParse p with _ | cs
    · rw [decode_stealth, hm] at hsome
      simp at hsome
    · have hdvd := readRows_dvd_of_some stealthRowParse 84 (by norm_num)
        exact_stealthRowParse p cs hm
      have hn := readRows_none_of_not_dvd stealthRowParse 84 (by norm_num)
        exact_stealthRowParse (p ++ extra)
        (not_dvd_append (by norm_num) hdvd h1 h2)
      simp [decode_stealth, hn]
  · intro p rows extra hsome h1 h2
    rcases hm : readRows historyRowParse p with _ | cs
    · rw [decode_history, hm] at hsome
      simp at hsome
    · have hdvd := readRows_dvd_of_some historyRowParse 49 (by norm_num)
        exact_historyRowParse p cs hm
      have hn := readRows_none_of_not_dvd historyRowParse 49 (by norm_num)
        exact_historyRowParse (p ++ extra)
        (not_dvd_append (by norm_num) hdvd h1 h2)
      simp [decode_history, hn]
  · intro p rows extra hsome h1 h2
    have hdvd := readRows_dvd_of_some expandedRowParse 96 (by norm_num)
      exact_expandedRowParse p rows hsome
    exact readRows_none_of_not_dvd expandedRowParse 96 (by norm_num)
      exact_expandedRowParse (p ++ extra)
      (not_dvd_append (by norm_num) hdvd h1 h2)

/-- Witness for C3: each decoder rejects a concrete payload with
trailing bytes. -/
theorem decoders_require_exhaustion_witness :
    decode_empty [7] = none ∧
    decode_height [100, 0, 0, 0, 1] = none ∧
    decode_transaction_index [1, 0, 0, 0, 2, 0, 0, 0, 9] = none ∧
    decode_transaction (readLE 4) [1, 0, 0, 0, 9] = none ∧
    decode_block_header (readLE 4) [1, 0, 0, 0, 9] = none ∧
    decode_validate ([1, 0, 0, 0] ++ [5, 5]) = none ∧
    decode_stealth ([] ++ [1]) = none ∧
    decode_history (fun p => p.index) ([] ++ [1]) = none ∧
    decode_expanded_history ([] ++ [1]) = none := by
  have h := decoders_require_exhaustion Nat Nat (readLE 4) (readLE 4)
    (fun p => p.index)
  exact ⟨h.1 [7] (by decide),
    h.2.1 [100, 0, 0, 0, 1] 100 [1] (by decide) (by decide),
    h.2.2.1 [1, 0, 0, 0, 2, 0, 0, 0, 9] 1 2 [2, 0, 0, 0, 9] [9]
      (by decide) (by decide) (by decide),
    h.2.2.2.1 [1, 0, 0, 0, 9] 1 [9] (by decide) (by decide),
    h.2.2.2.2.1 [1, 0, 0, 0, 9] 1 [9] (by decide) (by decide),
    h.2.2.2.2.2.1 [1, 0, 0, 0] [1] [5, 5] (by decide) (by decide) (by decide),
    h.2.2.2.2.2.2.1 [] [] [1] (by decide) (by decide) (by decide),
    h.2.2.2.2.2.2.2.1 [] [] [1] (by decide) (by decide) (by decide),
    h.2.2.2.2.2.2.2.2 [] [] [1] (by decide) (by decide) (by decide)⟩

/-- Claim C4: a primitive parse failure anywhere in a payload — a
truncated fixed-field payload, a failing external deserialiser, or a
repeating-row payload whose length is not a whole number of rows
(covering every mid-sequence parse error, since each row has fixed wire
size) — makes the decoder fail, so the success handler never receives a
partial or garbage result. -/
theorem decoders_fail_on_parse_error (Tx Hd : Type)
    (tx_from_data : List Nat → Option (Tx × List Nat))
    (header_from_data : List Nat → Option (Hd × List Nat))
    (checksum : Point → Nat) :
    (∀ p : List Nat, p.length < 4 → decode_height p = none) ∧
    (∀ p : List Nat, p.length < 8 → decode_transaction_index p = none) ∧
    (∀ p : List Nat, tx_from_data p = none →
      decode_transaction tx_from_data p = none) ∧
    (∀ p : List Nat, header_from_data p = none →
      decode_block_header header_from_data p = none) ∧
    (∀ p : List Nat, ¬ (4 ∣ p.length) → decode_validate p = none) ∧
    (∀ p : List Nat, ¬ (84 ∣ p.length) → decode_stealth p = none) ∧
    (∀ p : List Nat, ¬ (49 ∣ p.length) →
      decode_history checksum p = none) ∧
    (∀ p : List Nat, ¬ (96 ∣ p.length) →
      decode_expanded_history p = none) := by
  refine ⟨?_, ?_, ?_, ?_, ?_, ?_, ?_, ?_⟩
  · intro p hlen
    simp [decode_height, readLE_none_of_lt hlen]
  · intro p hlen
    rcases Nat.lt_or_ge p.length 4 with h4 | h4
    · simp [decode_transaction_index, readLE_none_of_lt h4]
    · have hrest : (p.drop 4).length < 4 := by
        simp only [List.length_drop]; omega
      simp [decode_transaction_index, readLE_of_le h4,
        readLE_none_of_lt hrest]
  · intro p hnone
    simp [decode_transaction, hnone]
  · intro p hnone
    simp [decode_block_header, hnone]
  · intro p hnd
    exact readRows_none_of_not_dvd (readLE 4) 4 (by norm_num)
      (exact_readLE 4) p hnd
  · intro p hnd
    have hn := readRows_none_of_not_dvd stealthRowParse 84 (by norm_num)
      exact_stealthRowParse p hnd
    simp [decode_stealth, hn]
  · intro p hnd
    have hn := readRows_none_of_not_dvd historyRowParse 49 (by norm_num)
      exact_historyRowParse p hnd
    simp [decode_history, hn]
  · intro p hnd
    exact readRows_none_of_not_dvd expandedRowParse 96 (by norm_num)
      exact_expandedRowParse p hnd

/-- Witness for C4: each decoder rejects a concrete malformed payload. -/
theorem decoders_fail_on_parse_error_witness :
    decode_height [1, 2] = none ∧
    decode_transaction_index [1, 2, 3, 4, 5] = none ∧
    decode_transaction (fun _ => (none : Option (Nat × List Nat))) [] =
      none ∧
    decode_block_header (fun _ => (none : Option (Nat × List Nat))) [] =
      none ∧
    decode_validate [1, 2, 3] = none ∧
    decode_stealth [1] = none ∧
    decode_history (fun p => p.index) [1] = none ∧
    decode_expanded_history [1] = none := by
  have h := decoders_fail_on_parse_error Nat Nat (fun _ => none)
    (fun _ => none) (fun p => p.index)
  exact ⟨h.1 [1, 2] (by decide),
    h.2.1 [1, 2, 3, 4, 5] (by decide),
    h.2.2.1 [] rfl,
    h.2.2.2.1 [] rfl,
    h.2.2.2.2.1 [1, 2, 3] (by decide),
    h.2.2.2.2.2.1 [1] (by decide),
    h.2.2.2.2.2.2.1 [1] (by decide),
    h.2.2.2.2.2.2.2 [1] (by decide)⟩
